import Mathlib

/-!
Verification of the schedule repository (app.py).

Python strings are embedded as `List Char` (`Str`); dictionaries (which are
insertion-ordered in Python) are embedded as ordered association lists; the
session's `assignments` store becomes `Roster`, `closed` becomes `ClosedStore`,
and `employees` becomes `List Employee`.  Every definition below is translated
from the corresponding function in `app.py` (or, for the calendar helpers, the
Python standard library calls the code makes).
-/

set_option maxHeartbeats 1000000

/-- Python strings modelled as lists of characters. -/
abbrev Str := List Char

/-- Python `str.strip()`: drop whitespace from both ends. -/
def charTrim (s : Str) : Str :=
  ((s.dropWhile Char.isWhitespace).reverse.dropWhile Char.isWhitespace).reverse

/-- Python substring test `pat in hay`. -/
def subOf (pat hay : Str) : Bool :=
  (List.range (hay.length + 1)).any (fun i => pat.isPrefixOf (hay.drop i))

/-- Python `s.split(sep)` for a one-character separator (`"a,b".split(",") = ["a","b"]`,
`"".split(",") = [""]`). -/
def splitChar (sep : Char) : Str → List Str
  | [] => [[]]
  | c :: rest =>
    match splitChar sep rest with
    | [] => [[]]
    | h :: t => if c = sep then [] :: h :: t else (c :: h) :: t

/-- Python `sep.join(pieces)`. -/
def joinSep (sep : Str) : List Str → Str
  | [] => []
  | [p] => p
  | p :: rest => p ++ sep ++ joinSep sep rest

/-- Duplicate removal keeping first occurrences: the `seen`-set loop at the end
of `normalize_days` in app.py. -/
def dedupFirstAux {α : Type} [DecidableEq α] : List α → List α → List α
  | [], _ => []
  | a :: rest, seen =>
    if a ∈ seen then dedupFirstAux rest seen else a :: dedupFirstAux rest (a :: seen)

/-- Entry point of the duplicate-removal loop (empty `seen` set). -/
def dedupFirst {α : Type} [DecidableEq α] (l : List α) : List α := dedupFirstAux l []

/-- app.py `KOREAN_DAYS = ["월","화","수","목","금","토","일"]`. -/
def KOREAN_DAYS : List Str := [['월'], ['화'], ['수'], ['목'], ['금'], ['토'], ['일']]

/-- app.py `EMP_TYPES = ["4대보험","초단시간","사업소득","일용직"]`. -/
def EMP_TYPES : List Str :=
  [['4', '대', '보', '험'], ['초', '단', '시', '간'], ['사', '업', '소', '득'], ['일', '용', '직']]

/-- Separators unified to `","` by `normalize_days` (app.py line 105). -/
def DAY_SEPS : List Char := ['|', '/', ';', ' ', '·', 'ㆍ']

/-- The buffer loop inside `normalize_days` handling run-together day strings
(app.py lines 109-119): the buffer grows by each character and is flushed
whenever the character is itself a weekday token. -/
def splitRunAux : Str → Str → List Str
  | [], buf => if buf = [] then [] else [buf]
  | c :: rest, buf =>
    if [c] ∈ KOREAN_DAYS then (buf ++ [c]) :: splitRunAux rest []
    else splitRunAux rest (buf ++ [c])

/-- app.py `normalize_days(raw)`.  A `none` argument plays the role of a
`pd.isna` value (Python `None`). -/
def normalize_days (raw : Option Str) : List Str :=
  match raw with
  | none => []
  | some raw =>
    let s := charTrim raw
    if s = [] then []
    else
      let s := DAY_SEPS.foldl (fun acc sep => acc.map (fun c => if c = sep then ',' else c)) s
      let parts :=
        if ',' ∉ s then splitRunAux s []
        else ((splitChar ',' s).map charTrim).filter (fun p => decide (p ≠ []))
      dedupFirst (parts.filterMap (fun p => KOREAN_DAYS.find? (fun d => subOf d p)))

/-- Zero-padded decimal rendering, Python `f"{n:0Wd}"` (for the widths used here). -/
def padNum (w n : Nat) : Str :=
  List.replicate (w - (Nat.toDigits 10 n).length) '0' ++ Nat.toDigits 10 n

/-- app.py `ymd(y, m, d)`: the `"YYYY-MM-DD"` date key. -/
def ymd (y m d : Nat) : Str := padNum 4 y ++ ['-'] ++ padNum 2 m ++ ['-'] ++ padNum 2 d

/-- app.py `ym(y, m)`: the `"YYYY-MM"` month key. -/
def ymKey (y m : Nat) : Str := padNum 4 y ++ ['-'] ++ padNum 2 m

/-- Gregorian leap-year test (Python `calendar.isleap`). -/
def isLeap (y : Nat) : Bool := (y % 4 = 0 && y % 100 ≠ 0) || y % 400 = 0

/-- Number of days of month `m` of year `y`: Python `calendar.monthrange(y, m)[1]`. -/
def monthrange (y m : Nat) : Nat :=
  if m = 2 then (if isLeap y then 29 else 28)
  else if m = 4 ∨ m = 6 ∨ m = 9 ∨ m = 11 then 30 else 31

/-- Days in all years before `y` (proleptic Gregorian), as in `datetime.date.toordinal`. -/
def daysBeforeYear (y : Nat) : Nat :=
  365 * (y - 1) + ((y - 1) / 4 - (y - 1) / 100 + (y - 1) / 400)

/-- Days in the months of year `y` before month `m`. -/
def daysBeforeMonth (y m : Nat) : Nat := ((List.range' 1 (m - 1)).map (monthrange y)).sum

/-- Python `date(y, m, d).toordinal()`. -/
def dateOrdinal (y m d : Nat) : Nat := daysBeforeYear y + daysBeforeMonth y m + d

/-- Python `date(y, m, d).weekday()`: Monday = 0 .. Sunday = 6. -/
def pyWeekday (y m d : Nat) : Nat := (dateOrdinal y m d + 6) % 7

/-- Korean weekday label of a calendar date: `KOREAN_DAYS[date(y,m,d).weekday()]`
(app.py line 231). -/
def wdayStr (y m d : Nat) : Str := KOREAN_DAYS.getD (pyWeekday y m d) []

/-- Split a flat day-slot list into calendar weeks of seven slots. -/
def chunk7 : List Nat → List (List Nat)
  | [] => []
  | c :: rest => (c :: rest).take 7 :: chunk7 ((c :: rest).drop 7)
termination_by l => l.length
decreasing_by simp [List.length_drop]; omega

/-- Python `calendar.Calendar(firstweekday=0).monthdayscalendar(y, m)`: Monday-first
weeks of day numbers, with `0` filling the out-of-month slots. -/
def monthdayscalendar (y m : Nat) : List (List Nat) :=
  let w0 := pyWeekday y m 1
  let last := monthrange y m
  let pad := (7 - (w0 + last) % 7) % 7
  chunk7 (List.replicate w0 0 ++ List.range' 1 last ++ List.replicate pad 0)

/-- An employee record of the directory (`st.session_state.employees` entries). -/
structure Employee where
  name : Str
  phone : Str
  role : Str
  employment_type : Str
  available_days : List Str
deriving DecidableEq, Repr

/-- One shift assignment row of a date's list (`st.session_state.assignments` values). -/
structure Row where
  name : Str
  employment_type : Str
  clock_in : Str
  clock_out : Str
  brk : Int
  wage : Int
deriving DecidableEq, Repr

/-- The `assignments` store: insertion-ordered dict from date key to row list. -/
abbrev Roster := List (Str × List Row)

/-- The `closed` store: insertion-ordered dict from month key to closed day set
(a Python `{day: 1}` dict, embedded as the list of its keys). -/
abbrev ClosedStore := List (Str × List Nat)

/-- Python `dict.get(k, [])` on the roster (first matching key, dicts never
hold a key twice). -/
def lookupD : Roster → Str → List Row
  | [], _ => []
  | p :: rest, k => if p.1 = k then p.2 else lookupD rest k

/-- Python `k in dict` on the roster. -/
def containsKey : Roster → Str → Bool
  | [], _ => false
  | p :: rest, k => p.1 = k || containsKey rest k

/-- Replace the value of the first entry holding key `k` (Python in-place
`dict[k] = v` for a present key: position preserved). -/
def replaceFirstVal : Roster → Str → List Row → Roster
  | [], _, _ => []
  | p :: rest, k, v => if p.1 = k then (k, v) :: rest else p :: replaceFirstVal rest k v

/-- Python `dict.setdefault(k, []).<mutate>`: apply `f` to the existing value of
`k`, or bind `k` (at the end, in insertion order) to `f []` when absent. -/
def setdefaultThen (s : Roster) (k : Str) (f : List Row → List Row) : Roster :=
  if containsKey s k then replaceFirstVal s k (f (lookupD s k)) else s ++ [(k, f [])]

/-- Python `dict[k] = v`: replace when present, append when absent. -/
def setItem (s : Roster) (k : Str) (v : List Row) : Roster :=
  if containsKey s k then replaceFirstVal s k v else s ++ [(k, v)]

/-- Python `dict.pop(k, None)`: drop the entry holding `k`. -/
def removeKey (s : Roster) (k : Str) : Roster := s.eraseP (fun p => decide (p.1 = k))

/-- Python `dict.get(k, [])` on the closed-day store. -/
def closedLookup : ClosedStore → Str → List Nat
  | [], _ => []
  | p :: rest, k => if p.1 = k then p.2 else closedLookup rest k

/-- Digits-to-number conversion: Python `int(s)` on the digit strings used in
`"HH:MM"` times. -/
def strToNat (s : Str) : Nat := s.foldl (fun a c => a * 10 + (c.toNat - 48)) 0

/-- The inner `to_min` of app.py `minutes_between`: `hh, mm = hhmm.split(":")`.
Python raises on a string without exactly one `":"`; the embedding returns 0
there (the repository only ever passes well-formed `"HH:MM"` strings). -/
def to_min (s : Str) : Int :=
  match splitChar ':' s with
  | [hh, mm] => (strToNat hh : Int) * 60 + (strToNat mm : Int)
  | _ => 0

/-- app.py `minutes_between(cin, cout, brk)`. -/
def minutes_between (cin cout : Str) (brk : Int) : Int :=
  max 0 (to_min cout - to_min cin - max 0 brk)

/-- app.py `shift_cost(cin, cout, brk, wage)`.  Python float arithmetic is
embedded as exact rational arithmetic. -/
def shift_cost (cin cout : Str) (brk wage : Int) : ℚ :=
  ((minutes_between cin cout brk : ℚ) / 60) * (wage : ℚ)

/-- The default row appended by the auto-assignment engine (app.py lines 240-247). -/
def defaultRow (e : Employee) : Row :=
  ⟨e.name, e.employment_type, ['0', '9', ':', '0', '0'], ['1', '8', ':', '0', '0'], 60, 10000⟩

/-- The candidate loop of `auto_assign_for_month` (app.py lines 237-248): walk the
candidates, appending a default row for each name not in the `exists` set and
recording the appended name. -/
def appendNewAux (rows : List Row) (names : List Str) : List Employee → List Row
  | [] => rows
  | e :: rest =>
    if e.name ∈ names then appendNewAux rows names rest
    else appendNewAux (rows ++ [defaultRow e]) (e.name :: names) rest

/-- The body of `auto_assign_for_month` for one day slot `d` of the calendar grid
(app.py lines 226-248). -/
def auto_assign_day (emps : List Employee) (cd : List Nat) (y m : Nat)
    (s : Roster) (d : Nat) : Roster :=
  if d = 0 ∨ d ∈ cd then s
  else
    let cands := emps.filter (fun e => decide (wdayStr y m d ∈ e.available_days))
    if cands = [] then s
    else setdefaultThen s (ymd y m d) (fun rows => appendNewAux rows (rows.map Row.name) cands)

/-- app.py `auto_assign_for_month(year, month)`, with the session state passed
explicitly: iterate the month's calendar weeks and day slots. -/
def auto_assign_for_month (emps : List Employee) (cs : ClosedStore) (y m : Nat)
    (s : Roster) : Roster :=
  let cd := closedLookup cs (ymKey y m)
  (monthdayscalendar y m).foldl (fun s wk => wk.foldl (auto_assign_day emps cd y m) s) s

/-- The `"사업소득"` employment category excluded by the threshold evaluator. -/
def EMP_BIZ : Str := ['사', '업', '소', '득']

/-- Threshold flag string `"5인 이상"`. -/
def FLAG_GE5 : Str := ['5', '인', ' ', '이', '상']

/-- Threshold flag string `"5인 미만"`. -/
def FLAG_LT5 : Str := ['5', '인', ' ', '미', '만']

/-- app.py `biz_flag_for_month(year, month)` with the session state passed
explicitly.  The loop accumulates `(operating, meet)`; Python's exact
float comparison `meet >= denom / 2` (both operands are small integers,
represented exactly) is embedded as the rational comparison. -/
def biz_flag_for_month (cs : ClosedStore) (rs : Roster) (y m : Nat) :
    Str × Nat × Nat :=
  let cd := closedLookup cs (ymKey y m)
  let last := monthrange y m
  let om := (List.range' 1 last).foldl
    (fun (p : Nat × Nat) d =>
      if d ∈ cd then p
      else
        let arr := lookupD rs (ymd y m d)
        let uniq := dedupFirst ((arr.filter (fun r => decide (r.employment_type ≠ EMP_BIZ))).map Row.name)
        (p.1 + 1, if 5 ≤ uniq.length then p.2 + 1 else p.2))
    (0, 0)
  let denom := max 1 om.1
  let flag := if ((om.2 : ℚ) ≥ (denom : ℚ) / 2) then FLAG_GE5 else FLAG_LT5
  (flag, om.2, denom)

/-- The shift-add performed by the day-detail form handler (app.py line 351):
`assignments.setdefault(day_key, []).append(item)`. -/
def addAssignment (s : Roster) (k : Str) (item : Row) : Roster :=
  setdefaultThen s k (fun rows => rows ++ [item])

/-- The per-row delete of the day-detail view (app.py lines 292-297):
`day_list.pop(idx)`, then re-store the list or drop the key when empty. -/
def removeAssignment (s : Roster) (k : Str) (idx : Nat) : Roster :=
  let l := (lookupD s k).eraseIdx idx
  if l = [] then removeKey s k else setItem s k l

/-- The employee-delete cascade (app.py lines 491-494): every date list is
filtered of the deleted name, and a date whose list becomes empty loses its key. -/
def removeEmployeeCascade (s : Roster) (nm : Str) : Roster :=
  s.filterMap (fun p =>
    let arr := p.2.filter (fun r => decide (r.name ≠ nm))
    if arr = [] then none else some (p.1, arr))

/-- The employee-form submit handler (app.py lines 384-396): reject an empty
(trimmed) name, otherwise append the record with trimmed fields. -/
def addEmployee (dir : List Employee) (name phone role et : Str) (days : List Str) :
    List Employee :=
  if charTrim name = [] then dir
  else dir ++ [⟨charTrim name, charTrim phone, charTrim role, et, days⟩]

/-- A tabular frame: named columns and string cells (what the code reads from /
writes to a spreadsheet through pandas). -/
structure DF where
  cols : List Str
  rows : List (List Str)
deriving DecidableEq, Repr

/-- app.py `_clean_colname`: strip, lower-case, delete whitespace and the
punctuation class of the regex. -/
def cleanCol (s : Str) : Str :=
  ((charTrim s).map Char.toLower).filter
    (fun c => decide (¬ (c.isWhitespace ∨
      c ∈ ['_', '-', '(', ')', '/', '[', ']', '{', '}', '·', '.'])))

/-- app.py `HEADER_MAP`: canonical field names and their accepted header aliases. -/
def HEADER_MAP : List (Str × List Str) :=
  [(['n', 'a', 'm', 'e'],
    [['n', 'a', 'm', 'e'], ['이', '름'], ['성', '명']]),
   (['p', 'h', 'o', 'n', 'e'],
    [['p', 'h', 'o', 'n', 'e'], ['연', '락', '처'], ['전', '화'], ['전', '화', '번', '호'],
     ['휴', '대', '폰'], ['핸', '드', '폰'], ['m', 'o', 'b', 'i', 'l', 'e']]),
   (['r', 'o', 'l', 'e'],
    [['r', 'o', 'l', 'e'], ['포', '지', '션'], ['메', '모'], ['직', '무'], ['직', '책'],
     ['비', '고']]),
   (['e', 'm', 'p', 'l', 'o', 'y', 'm', 'e', 'n', 't', '_', 't', 'y', 'p', 'e'],
    [['e', 'm', 'p', 'l', 'o', 'y', 'm', 'e', 'n', 't', 't', 'y', 'p', 'e'],
     ['고', '용', '형', '태'], ['고', '용'], ['형', '태'], ['구', '분'], ['신', '분']]),
   (['a', 'v', 'a', 'i', 'l', 'a', 'b', 'l', 'e', '_', 'd', 'a', 'y', 's'],
    [['a', 'v', 'a', 'i', 'l', 'a', 'b', 'l', 'e', 'd', 'a', 'y', 's'],
     ['가', '용', '요', '일'], ['근', '무', '요', '일'], ['요', '일'], ['가', '능', '요', '일']])]

/-- The `norm` dict of `normalize_columns` (`{clean(c): c for c in df.columns}`):
a later column with the same cleaned name wins, as in a dict comprehension. -/
def normLookup (cols : List Str) (k : Str) : Option Str :=
  (cols.filter (fun c => decide (cleanCol c = k))).getLast?

/-- Column projection `df[col]` at one row: the cell under the (first) column
named `col`. -/
def colValue (cols : List Str) (row : List Str) (c : Str) : Str :=
  match cols.findIdx? (fun c' => decide (c' = c)) with
  | some i => row.getD i []
  | none => []

/-- The alias scan of `normalize_columns`: first alias whose cleaned form is a
cleaned column name of the frame. -/
def hitCol (cols : List Str) (aliases : List Str) : Option Str :=
  aliases.findSome? (fun a => normLookup cols (cleanCol a))

/-- app.py `normalize_columns(df)`: a five-column frame in `HEADER_MAP` order;
a target with no alias hit gets an all-empty column. -/
def normalize_columns (df : DF) : DF :=
  ⟨HEADER_MAP.map Prod.fst,
   df.rows.map (fun row => HEADER_MAP.map (fun tk =>
     match hitCol df.cols tk.2 with
     | some c => colValue df.cols row c
     | none => []))⟩

/-- app.py `employees_to_df(employees)`: fixed column order, `available_days`
comma-joined. -/
def employees_to_df (emps : List Employee) : DF :=
  ⟨HEADER_MAP.map Prod.fst,
   emps.map (fun e =>
     [e.name, e.phone, e.role, e.employment_type, joinSep [','] e.available_days])⟩

/-- The skip reason `"이름(name) 없음"` recorded by `df_to_employees`. -/
def REASON_NO_NAME : Str := ['이', '름', '(', 'n', 'a', 'm', 'e', ')', ' ', '없', '음']

/-- The row loop of app.py `df_to_employees` (lines 160-182): `idx` is the
0-based pandas index, reported as `idx + 2` (header line + 1-based rows). -/
def dfRowsToEmployees (cols : List Str) :
    List (List Str) → Nat → List Employee × List (Nat × Str)
  | [], _ => ([], [])
  | row :: rest, idx =>
    let restRes := dfRowsToEmployees cols rest (idx + 1)
    let name := charTrim (colValue cols row ['n', 'a', 'm', 'e'])
    if name = [] then (restRes.1, (idx + 2, REASON_NO_NAME) :: restRes.2)
    else
      let etRaw := charTrim (colValue cols row
        ['e', 'm', 'p', 'l', 'o', 'y', 'm', 'e', 'n', 't', '_', 't', 'y', 'p', 'e'])
      let et := if etRaw ∈ EMP_TYPES then etRaw else EMP_TYPES.getD 0 []
      let days := normalize_days (some (colValue cols row
        ['a', 'v', 'a', 'i', 'l', 'a', 'b', 'l', 'e', '_', 'd', 'a', 'y', 's']))
      (⟨name, charTrim (colValue cols row ['p', 'h', 'o', 'n', 'e']),
        charTrim (colValue cols row ['r', 'o', 'l', 'e']), et, days⟩ :: restRes.1,
       restRes.2)

/-- app.py `df_to_employees(df)`: normalize the headers, then walk the rows. -/
def df_to_employees (df : DF) : List Employee × List (Nat × Str) :=
  let ndf := normalize_columns df
  dfRowsToEmployees ndf.cols ndf.rows 0

/-- The upload handler's directory update (app.py line 458):
`st.session_state.employees.extend(new_emps)`. -/
def importEmployees (dir : List Employee) (df : DF) : List Employee :=
  dir ++ (df_to_employees df).1

/-! Concrete fixtures used by counterexamples and witnesses. -/

/-- A concrete shift row for employee 김철수. -/
def rowKim : Row :=
  ⟨['김', '철', '수'], ['4', '대', '보', '험'], ['0', '9', ':', '0', '0'],
   ['1', '8', ':', '0', '0'], 60, 10000⟩

/-- A concrete shift row for employee 이영희. -/
def rowLee : Row :=
  ⟨['이', '영', '희'], ['일', '용', '직'], ['0', '9', ':', '0', '0'],
   ['1', '8', ':', '0', '0'], 60, 10000⟩

/-- A concrete roster holding 김철수 on 2026-01-05 (with 이영희) and on 2026-01-12. -/
def rosterKim : Roster :=
  [(ymd 2026 1 5, [rowKim, rowLee]), (ymd 2026 1 12, [rowKim])]

/-- The RosterStore invariant: no key is bound to an empty assignment list. -/
def StoreInv (s : Roster) : Prop := ∀ p ∈ s, p.2 ≠ ([] : List Row)

instance (s : Roster) : Decidable (StoreInv s) := by
  unfold StoreInv
  infer_instance

/-- Saturation of one day slot: the slot is padding, the day is closed, or every
candidate employee's name already appears in the date's assignment list. -/
def dayDone (emps : List Employee) (cd : List Nat) (y m : Nat) (s : Roster) (d : Nat) : Prop :=
  d = 0 ∨ d ∈ cd ∨
    ∀ e ∈ emps.filter (fun e => decide (wdayStr y m d ∈ e.available_days)),
      e.name ∈ (lookupD s (ymd y m d)).map Row.name

/-- A directory record as C10 requires it: trimmed non-empty name, trimmed
phone and role, a recognized employment type, duplicate-free canonical
available-day tokens. -/
def GoodEmp (e : Employee) : Prop :=
  charTrim e.name = e.name ∧ e.name ≠ [] ∧ charTrim e.phone = e.phone ∧
  charTrim e.role = e.role ∧ e.employment_type ∈ EMP_TYPES ∧
  e.available_days.Nodup ∧ ∀ d ∈ e.available_days, d ∈ KOREAN_DAYS

instance (e : Employee) : Decidable (GoodEmp e) := by
  unfold GoodEmp
  infer_instance

/-- A concrete well-formed directory record used as the round-trip witness. -/
def empHong : Employee :=
  ⟨['홍', '길', '동'], ['0', '1', '0'], ['홀', '서', '빙'], ['4', '대', '보', '험'],
   [['월'], ['수'], ['금']]⟩

/-! Theorems: claim statements and the lemmas supporting them. -/

/-- C6: `parseDayTokens` maps "월,수,금", "월/수/금", "월수금" and "월·수·금" to
[월, 수, 금], and maps the empty string and the missing/None input to the
empty sequence. -/
theorem normalize_days_examples :
    normalize_days (some ['월', ',', '수', ',', '금']) = [['월'], ['수'], ['금']] ∧
    normalize_days (some ['월', '/', '수', '/', '금']) = [['월'], ['수'], ['금']] ∧
    normalize_days (some ['월', '수', '금']) = [['월'], ['수'], ['금']] ∧
    normalize_days (some ['월', '·', '수', '·', '금']) = [['월'], ['수'], ['금']] ∧
    normalize_days (some []) = [] ∧
    normalize_days none = [] := by
  decide


/-! Association-list lemmas about the dict embedding. -/

theorem lookupD_of_not_contains {s : Roster} {k : Str} (h : containsKey s k = false) :
    lookupD s k = [] := by
  induction s with
  | nil => rfl
  | cons p rest ih =>
    simp only [containsKey, Bool.or_eq_false_iff, decide_eq_false_iff_not] at h
    simp [lookupD, h.1, ih h.2]

theorem lookupD_replaceFirst {s : Roster} {k : Str} (v : List Row)
    (h : containsKey s k = true) : lookupD (replaceFirstVal s k v) k = v := by
  induction s with
  | nil => simp [containsKey] at h
  | cons p rest ih =>
    by_cases hk : p.1 = k
    · simp [replaceFirstVal, hk, lookupD]
    · simp only [containsKey, Bool.or_eq_true, decide_eq_true_eq] at h
      rcases h with h | h
      · exact absurd h hk
      · simp [replaceFirstVal, hk, lookupD, ih h]

theorem lookupD_replaceFirst_other {k k' : Str} (hne : k' ≠ k) :
    ∀ (s : Roster) (v : List Row), lookupD (replaceFirstVal s k v) k' = lookupD s k' := by
  intro s v
  induction s with
  | nil => rfl
  | cons p rest ih =>
    by_cases hk : p.1 = k
    · have : ¬ k = k' := fun h => hne h.symm
      simp [replaceFirstVal, hk, lookupD, this, hk ▸ this]
    · simp [replaceFirstVal, hk, lookupD, ih]

theorem lookupD_append_one {s : Roster} {k : Str} (v : List Row)
    (h : containsKey s k = false) : lookupD (s ++ [(k, v)]) k = v := by
  induction s with
  | nil => simp [lookupD]
  | cons p rest ih =>
    simp only [containsKey, Bool.or_eq_false_iff, decide_eq_false_iff_not] at h
    simpa [lookupD, h.1] using ih h.2

theorem lookupD_append_one_other {k k' : Str} (hne : k' ≠ k) (v : List Row) :
    ∀ s : Roster, lookupD (s ++ [(k, v)]) k' = lookupD s k' := by
  intro s
  induction s with
  | nil =>
    simp only [List.nil_append, lookupD]
    rw [if_neg (fun h => hne h.symm)]
  | cons p rest ih =>
    by_cases hk : p.1 = k'
    · simp [lookupD, hk]
    · simp [lookupD, hk, ih]

theorem lookupD_setdefaultThen_self (s : Roster) (k : Str) (f : List Row → List Row) :
    lookupD (setdefaultThen s k f) k = f (lookupD s k) := by
  unfold setdefaultThen
  by_cases h : containsKey s k
  · simp [h, lookupD_replaceFirst _ h]
  · have h' : containsKey s k = false := by simpa using h
    simp [h', lookupD_append_one _ h', lookupD_of_not_contains h']

theorem lookupD_setdefaultThen_other (s : Roster) {k k' : Str} (hne : k' ≠ k)
    (f : List Row → List Row) :
    lookupD (setdefaultThen s k f) k' = lookupD s k' := by
  unfold setdefaultThen
  by_cases h : containsKey s k
  · simp [h, lookupD_replaceFirst_other hne]
  · have h' : containsKey s k = false := by simpa using h
    simp [h', lookupD_append_one_other hne]

theorem containsKey_of_lookupD_ne {s : Roster} {k : Str} (h : lookupD s k ≠ []) :
    containsKey s k = true := by
  induction s with
  | nil => exact absurd rfl h
  | cons p rest ih =>
    by_cases hk : p.1 = k
    · simp [containsKey, hk]
    · simp only [lookupD, hk, if_false] at h
      simp [containsKey, ih h]

theorem replaceFirst_self {k : Str} :
    ∀ {s : Roster}, containsKey s k = true → replaceFirstVal s k (lookupD s k) = s := by
  intro s
  induction s with
  | nil => intro h; simp [containsKey] at h
  | cons p rest ih =>
    intro h
    by_cases hk : p.1 = k
    · cases p with
      | mk pk pv => simp only at hk; subst hk; simp [replaceFirstVal, lookupD]
    · simp only [containsKey, Bool.or_eq_true, decide_eq_true_eq] at h
      rcases h with h | h
      · exact absurd h hk
      · simp [replaceFirstVal, hk, lookupD, ih h]

/-- C1 counterexample: with `rowKim` already present on 2026-01-05, a second
`addAssignment` of the same employee name does not fail — it appends, leaving
the date's `employeeName` values non-unique. -/
theorem addAssignment_duplicate_cex :
    lookupD (addAssignment (addAssignment [] (ymd 2026 1 5) rowKim) (ymd 2026 1 5) rowKim)
        (ymd 2026 1 5) = [rowKim, rowKim] ∧
    ¬ ((lookupD (addAssignment (addAssignment [] (ymd 2026 1 5) rowKim) (ymd 2026 1 5) rowKim)
        (ymd 2026 1 5)).map Row.name).Nodup := by
  constructor
  · decide
  · decide

/-- C1 (amended): `addAssignment(dateKey, shift)` never raises a duplicate
error; it unconditionally appends the shift to the date's list, even when an
assignment with the same `employeeName` is already present, so within one
date's list `employeeName` values need not be unique (only the auto-assignment
engine skips already-present names). -/
theorem addAssignment_always_appends (s : Roster) (k : Str) (item : Row) :
    lookupD (addAssignment s k item) k = lookupD s k ++ [item] :=
  lookupD_setdefaultThen_self s k (fun rows => rows ++ [item])

/-- C2 counterexample: adding the employee 홍길동 twice through the form handler
leaves two directory records with the same name — the name is not a unique key. -/
theorem addEmployee_duplicate_cex :
    ¬ ((addEmployee
        (addEmployee [] ['홍', '길', '동'] [] [] (['4', '대', '보', '험'] : Str) [])
        ['홍', '길', '동'] [] [] (['4', '대', '보', '험'] : Str) []).map
          Employee.name).Nodup := by
  decide

/-- C2 (amended): the employee name is not enforced unique.  `addEmployee`
appends a record (with trimmed fields) whenever the trimmed name is non-empty,
regardless of whether the name is already present in the directory, and
`importEmployees` extends the directory with every imported record with no
deduplication, so records sharing a name can coexist. -/
theorem addEmployee_no_unique_key (dir : List Employee) (name phone role et : Str)
    (days : List Str) (df : DF) (h : charTrim name ≠ []) :
    addEmployee dir name phone role et days =
      dir ++ [⟨charTrim name, charTrim phone, charTrim role, et, days⟩] ∧
    importEmployees dir df = dir ++ (df_to_employees df).1 := by
  constructor
  · simp [addEmployee, h]
  · rfl

/-- Witness for the amended C2 theorem at a concrete duplicate-creating input. -/
theorem addEmployee_no_unique_key_witness :
    charTrim ['홍'] ≠ [] ∧
    addEmployee [⟨['홍'], [], [], ['일', '용', '직'], []⟩] ['홍'] [] [] ['일', '용', '직'] [] =
      [⟨['홍'], [], [], ['일', '용', '직'], []⟩, ⟨['홍'], [], [], ['일', '용', '직'], []⟩] := by
  refine ⟨by decide, ?_⟩
  rw [(addEmployee_no_unique_key [⟨['홍'], [], [], ['일', '용', '직'], []⟩]
    ['홍'] [] [] ['일', '용', '직'] [] ⟨[], []⟩ (by decide)).1]
  decide

/-- C8: `minutesWorked` is the clamped difference of the parsed clock times
minus the clamped break, a clock-out earlier than clock-in yields zero minutes,
`cost` is `(minutesWorked / 60) * hourlyWage`, and the 09:00-18:00 / 60-minute
break / wage-10000 example gives 480 minutes and cost 80000. -/
theorem shift_minutes_and_cost (cin cout : Str) (brk wage : Int) :
    minutes_between cin cout brk = max 0 (to_min cout - to_min cin - max 0 brk) ∧
    (to_min cout < to_min cin → minutes_between cin cout brk = 0) ∧
    shift_cost cin cout brk wage = ((minutes_between cin cout brk : ℚ) / 60) * (wage : ℚ) ∧
    minutes_between ['0', '9', ':', '0', '0'] ['1', '8', ':', '0', '0'] 60 = 480 ∧
    shift_cost ['0', '9', ':', '0', '0'] ['1', '8', ':', '0', '0'] 60 10000 = 80000 := by
  refine ⟨rfl, ?_, rfl, by decide, ?_⟩
  · intro h
    have h0 : (0 : Int) ≤ max 0 brk := le_max_left 0 brk
    have hle : to_min cout - to_min cin - max 0 brk ≤ 0 := by omega
    simp [minutes_between, max_eq_left hle]
  · have h480 : minutes_between ['0', '9', ':', '0', '0'] ['1', '8', ':', '0', '0'] 60 = 480 := by
      decide
    rw [shift_cost, h480]
    norm_num

/-- Witness for the clock-out-before-clock-in clamp of C8. -/
theorem shift_minutes_and_cost_witness :
    to_min ['0', '8', ':', '0', '0'] < to_min ['0', '9', ':', '0', '0'] ∧
    minutes_between ['0', '9', ':', '0', '0'] ['0', '8', ':', '0', '0'] 0 = 0 :=
  ⟨by decide,
   (shift_minutes_and_cost ['0', '9', ':', '0', '0'] ['0', '8', ':', '0', '0'] 0 0).2.1
     (by decide)⟩

/-! Threshold-evaluator lemmas (C3, C5). -/

theorem flag_iff_aux (meet denom : Nat) :
    (if ((meet : ℚ) ≥ (denom : ℚ) / 2) then FLAG_GE5 else FLAG_LT5) = FLAG_GE5 ↔
      2 * meet ≥ denom := by
  by_cases h : ((meet : ℚ) ≥ (denom : ℚ) / 2)
  · rw [if_pos h]
    have h2 : (denom : ℚ) ≤ (meet : ℚ) * 2 := (div_le_iff₀ (by norm_num)).mp h
    have h3 : denom ≤ 2 * meet := by
      have : ((denom : Nat) : ℚ) ≤ ((2 * meet : Nat) : ℚ) := by push_cast; linarith
      exact_mod_cast this
    simp [ge_iff_le, h3]
  · rw [if_neg h]
    constructor
    · intro hEq
      exact absurd hEq (by decide)
    · intro hc
      exfalso
      apply h
      rw [ge_iff_le, div_le_iff₀ (by norm_num : (0 : ℚ) < 2)]
      have : ((denom : Nat) : ℚ) ≤ ((2 * meet : Nat) : ℚ) := by exact_mod_cast hc
      push_cast at this
      linarith

/-- C3: the evaluator returns the flag "5인 이상" ("5-or-more") exactly when
twice the returned `meet` count is at least the returned `operating` count. -/
theorem biz_flag_threshold_iff (cs : ClosedStore) (rs : Roster) (y m : Nat) :
    (biz_flag_for_month cs rs y m).1 = FLAG_GE5 ↔
      2 * (biz_flag_for_month cs rs y m).2.1 ≥ (biz_flag_for_month cs rs y m).2.2 := by
  simp only [biz_flag_for_month]
  exact flag_iff_aux _ _

theorem length_filter_not (cd : List Nat) : ∀ ds : List Nat,
    (ds.filter (fun d => decide (d ∉ cd))).length =
      ds.length - (ds.filter (fun d => decide (d ∈ cd))).length := by
  intro ds
  induction ds with
  | nil => rfl
  | cons d rest ih =>
    have hle : (rest.filter (fun d => decide (d ∈ cd))).length ≤ rest.length :=
      List.length_filter_le _ _
    simp only [decide_not] at ih hle ⊢
    by_cases hd : d ∈ cd
    · simp [List.filter_cons, hd]
      omega
    · simp [List.filter_cons, hd]
      omega

theorem bizLoop_fst (cs : ClosedStore) (rs : Roster) (y m : Nat) :
    ∀ (ds : List Nat) (p : Nat × Nat),
      ((ds.foldl (fun (p : Nat × Nat) d =>
        if d ∈ closedLookup cs (ymKey y m) then p
        else (p.1 + 1,
          if 5 ≤ (dedupFirst (((lookupD rs (ymd y m d)).filter
              (fun r => decide (r.employment_type ≠ EMP_BIZ))).map Row.name)).length
          then p.2 + 1 else p.2)) p).1) =
      p.1 + (ds.filter (fun d => decide (d ∉ closedLookup cs (ymKey y m)))).length := by
  intro ds
  induction ds with
  | nil => intro p; simp
  | cons d rest ih =>
    intro p
    rw [List.foldl_cons, ih]
    by_cases hd : d ∈ closedLookup cs (ymKey y m)
    · simp [hd]
    · simp [List.filter_cons, hd]
      omega

theorem bizLoop_closed (cs : ClosedStore) (rs : Roster) (y m : Nat) :
    ∀ (ds : List Nat) (p : Nat × Nat),
      (∀ d ∈ ds, d ∈ closedLookup cs (ymKey y m)) →
      ds.foldl (fun (p : Nat × Nat) d =>
        if d ∈ closedLookup cs (ymKey y m) then p
        else (p.1 + 1,
          if 5 ≤ (dedupFirst (((lookupD rs (ymd y m d)).filter
              (fun r => decide (r.employment_type ≠ EMP_BIZ))).map Row.name)).length
          then p.2 + 1 else p.2)) p = p := by
  intro ds
  induction ds with
  | nil => intro p _; rfl
  | cons d rest ih =>
    intro p h
    rw [List.foldl_cons, if_pos (h d (List.mem_cons_self d rest))]
    exact ih p (fun d' hd' => h d' (List.mem_cons_of_mem d hd'))

/-- C5: the `operating` value returned by the evaluator is the number of days
of the month minus the number of closed days among 1..last, floored at 1; and
a month whose days are all closed returns (flag "5인 미만", meet 0, operating 1). -/
theorem biz_operating_count (cs : ClosedStore) (rs : Roster) (y m : Nat) :
    (biz_flag_for_month cs rs y m).2.2 =
      max 1 (monthrange y m -
        ((List.range' 1 (monthrange y m)).filter
          (fun d => decide (d ∈ closedLookup cs (ymKey y m)))).length) ∧
    ((∀ d ∈ List.range' 1 (monthrange y m), d ∈ closedLookup cs (ymKey y m)) →
      biz_flag_for_month cs rs y m = (FLAG_LT5, 0, 1)) := by
  constructor
  · simp only [biz_flag_for_month]
    rw [bizLoop_fst]
    rw [Nat.zero_add, length_filter_not, List.length_range']
  · intro h
    simp only [biz_flag_for_month]
    rw [bizLoop_closed cs rs y m _ _ h]
    norm_num

/-- Witness for the all-closed clause of C5: every day of February 2026 closed. -/
theorem biz_operating_count_witness :
    (∀ d ∈ List.range' 1 (monthrange 2026 2),
      d ∈ closedLookup [(ymKey 2026 2, List.range' 1 28)] (ymKey 2026 2)) ∧
    biz_flag_for_month [(ymKey 2026 2, List.range' 1 28)] [] 2026 2 = (FLAG_LT5, 0, 1) :=
  ⟨by decide,
   (biz_operating_count [(ymKey 2026 2, List.range' 1 28)] [] 2026 2).2 (by decide)⟩

/-- C7: after the employee-delete cascade, no entry of the roster holds an
assignment with the deleted name, and no entry holds an empty list (a date
whose list becomes empty loses its key rather than staying bound to []). -/
theorem cascade_removes_name (s : Roster) (nm : Str) :
    ∀ k rows, (k, rows) ∈ removeEmployeeCascade s nm →
      (∀ r ∈ rows, r.name ≠ nm) ∧ rows ≠ [] := by
  intro k rows hmem
  unfold removeEmployeeCascade at hmem
  rw [List.mem_filterMap] at hmem
  obtain ⟨p, hp, heq⟩ := hmem
  by_cases h : (p.2.filter (fun r => decide (r.name ≠ nm))) = []
  · rw [if_pos h] at heq
    exact Option.noConfusion heq
  · rw [if_neg h, Option.some_inj] at heq
    have hrows : rows = p.2.filter (fun r => decide (r.name ≠ nm)) := by
      have := congrArg Prod.snd heq
      simpa using this.symm
    constructor
    · intro r hr
      rw [hrows] at hr
      have := (List.mem_filter.mp hr).2
      simpa using this
    · rw [hrows]
      exact h

/-- Witness for C7: deleting 김철수 from `rosterKim` leaves only the 2026-01-05
entry holding 이영희; applying the theorem at that entry. -/
theorem cascade_removes_name_witness :
    ((ymd 2026 1 5, [rowLee]) ∈ removeEmployeeCascade rosterKim ['김', '철', '수']) ∧
    (∀ r ∈ [rowLee], r.name ≠ ['김', '철', '수']) ∧ [rowLee] ≠ ([] : List Row) :=
  ⟨by decide,
   cascade_removes_name rosterKim ['김', '철', '수'] (ymd 2026 1 5) [rowLee] (by decide)⟩

/-! Invariant machinery (C9): every present key maps to a non-empty list. -/

/-- Shape of a post-cascade entry: its list survived the name filter non-empty. -/
theorem cascade_entry_ne_nil {s : Roster} {nm : Str} {p : Str × List Row}
    (hp : p ∈ removeEmployeeCascade s nm) : p.2 ≠ [] := by
  unfold removeEmployeeCascade at hp
  rw [List.mem_filterMap] at hp
  obtain ⟨q, _, heq⟩ := hp
  by_cases h : (q.2.filter (fun r => decide (r.name ≠ nm))) = []
  · rw [if_pos h] at heq
    exact Option.noConfusion heq
  · rw [if_neg h, Option.some_inj] at heq
    have := congrArg Prod.snd heq
    simp only at this
    rw [← this]
    exact h

theorem mem_replaceFirstVal {k : Str} {v : List Row} :
    ∀ {s : Roster} {p : Str × List Row}, p ∈ replaceFirstVal s k v → p ∈ s ∨ p = (k, v) := by
  intro s
  induction s with
  | nil => intro p hp; exact absurd hp (List.not_mem_nil p)
  | cons q rest ih =>
    intro p hp
    by_cases hk : q.1 = k
    · rw [replaceFirstVal, if_pos hk] at hp
      rcases List.mem_cons.mp hp with h | h
      · exact Or.inr h
      · exact Or.inl (List.mem_cons_of_mem q h)
    · rw [replaceFirstVal, if_neg hk] at hp
      rcases List.mem_cons.mp hp with h | h
      · exact Or.inl (h ▸ List.mem_cons_self q rest)
      · rcases ih h with h' | h'
        · exact Or.inl (List.mem_cons_of_mem q h')
        · exact Or.inr h'

theorem lookupD_ne_nil_of_inv {s : Roster} {k : Str} (hs : StoreInv s)
    (hc : containsKey s k = true) : lookupD s k ≠ [] := by
  induction s with
  | nil => simp [containsKey] at hc
  | cons q rest ih =>
    by_cases hk : q.1 = k
    · rw [lookupD, if_pos hk]
      exact hs q (List.mem_cons_self q rest)
    · rw [lookupD, if_neg hk]
      simp only [containsKey, Bool.or_eq_true, decide_eq_true_eq] at hc
      rcases hc with h | h
      · exact absurd h hk
      · exact ih (fun p hp => hs p (List.mem_cons_of_mem q hp)) h

theorem setdefaultThen_inv {s : Roster} {k : Str} {f : List Row → List Row}
    (hs : StoreInv s) (h1 : ∀ v, v ≠ [] → f v ≠ []) (h0 : f [] ≠ []) :
    StoreInv (setdefaultThen s k f) := by
  unfold setdefaultThen
  by_cases hc : containsKey s k
  · rw [if_pos hc]
    intro p hp
    rcases mem_replaceFirstVal hp with h | h
    · exact hs p h
    · rw [h]
      exact h1 _ (lookupD_ne_nil_of_inv hs hc)
  · rw [if_neg hc]
    intro p hp
    rcases List.mem_append.mp hp with h | h
    · exact hs p h
    · rw [List.mem_singleton.mp h]
      exact h0

theorem appendNewAux_extends :
    ∀ (cands : List Employee) (rows : List Row) (names : List Str),
      ∃ ext, appendNewAux rows names cands = rows ++ ext := by
  intro cands
  induction cands with
  | nil => exact fun rows names => ⟨[], by simp [appendNewAux]⟩
  | cons e rest ih =>
    intro rows names
    by_cases hmem : e.name ∈ names
    · rw [appendNewAux, if_pos hmem]
      exact ih rows names
    · rw [appendNewAux, if_neg hmem]
      obtain ⟨ext, hext⟩ := ih (rows ++ [defaultRow e]) (e.name :: names)
      exact ⟨[defaultRow e] ++ ext, by rw [hext, List.append_assoc]⟩

theorem appendNewAux_ne_nil {cands : List Employee} (hc : cands ≠ []) :
    appendNewAux [] [] cands ≠ [] := by
  cases cands with
  | nil => exact absurd rfl hc
  | cons e rest =>
    rw [appendNewAux, if_neg (List.not_mem_nil e.name)]
    simp only [List.nil_append]
    obtain ⟨ext, hext⟩ := appendNewAux_extends rest [defaultRow e] [e.name]
    rw [hext]
    simp

theorem auto_assign_day_inv {emps : List Employee} {cd : List Nat} {y m : Nat}
    {s : Roster} {d : Nat} (hs : StoreInv s) :
    StoreInv (auto_assign_day emps cd y m s d) := by
  unfold auto_assign_day
  by_cases h1 : d = 0 ∨ d ∈ cd
  · rwa [if_pos h1]
  · rw [if_neg h1]
    by_cases h2 : emps.filter (fun e => decide (wdayStr y m d ∈ e.available_days)) = []
    · rwa [if_pos h2]
    · rw [if_neg h2]
      refine setdefaultThen_inv hs ?_ ?_
      · intro v hv
        obtain ⟨ext, hext⟩ := appendNewAux_extends
          (emps.filter (fun e => decide (wdayStr y m d ∈ e.available_days))) v (v.map Row.name)
        rw [hext]
        simp [hv]
      · exact appendNewAux_ne_nil h2

theorem foldl_inv {α : Type} {step : Roster → α → Roster}
    (hstep : ∀ s a, StoreInv s → StoreInv (step s a)) :
    ∀ (l : List α) (s : Roster), StoreInv s → StoreInv (l.foldl step s) := by
  intro l
  induction l with
  | nil => exact fun s hs => hs
  | cons a rest ih => exact fun s hs => ih (step s a) (hstep s a hs)

theorem setItem_inv {s : Roster} {k : Str} {v : List Row} (hs : StoreInv s)
    (hv : v ≠ []) : StoreInv (setItem s k v) := by
  unfold setItem
  by_cases hc : containsKey s k
  · rw [if_pos hc]
    intro p hp
    rcases mem_replaceFirstVal hp with h | h
    · exact hs p h
    · rw [h]; exact hv
  · rw [if_neg hc]
    intro p hp
    rcases List.mem_append.mp hp with h | h
    · exact hs p h
    · rw [List.mem_singleton.mp h]; exact hv

/-- C9: the non-empty-list invariant of the RosterStore is preserved by
auto-assignment, manual shift add, per-row shift removal, and the
employee-delete cascade. -/
theorem roster_invariant_preserved (emps : List Employee) (cs : ClosedStore) (y m : Nat)
    (s : Roster) (k : Str) (item : Row) (idx : Nat) (nm : Str) (hs : StoreInv s) :
    StoreInv (auto_assign_for_month emps cs y m s) ∧
    StoreInv (addAssignment s k item) ∧
    StoreInv (removeAssignment s k idx) ∧
    StoreInv (removeEmployeeCascade s nm) := by
  refine ⟨?_, ?_, ?_, ?_⟩
  · unfold auto_assign_for_month
    exact foldl_inv
      (fun s wk h => foldl_inv (fun s d h' => auto_assign_day_inv h') wk s h)
      (monthdayscalendar y m) s hs
  · exact setdefaultThen_inv hs (fun v _ => by simp) (by simp)
  · unfold removeAssignment
    by_cases h : (lookupD s k).eraseIdx idx = []
    · rw [if_pos h]
      intro p hp
      exact hs p ((List.eraseP_sublist s).mem hp)
    · rw [if_neg h]
      exact setItem_inv hs h
  · intro p hp
    exact cascade_entry_ne_nil hp

/-- Witness for C9 at a concrete store satisfying the invariant. -/
theorem roster_invariant_preserved_witness :
    StoreInv rosterKim ∧ StoreInv (addAssignment rosterKim (ymd 2026 1 19) rowLee) :=
  ⟨by decide,
   (roster_invariant_preserved [] [] 2026 1 rosterKim (ymd 2026 1 19) rowLee 0 []
     (by decide)).2.1⟩

/-! Idempotence machinery (C4). -/

theorem appendNewAux_covers :
    ∀ (cands : List Employee) (rows : List Row) (names : List Str),
      (∀ x ∈ names, x ∈ rows.map Row.name) →
      ∀ e ∈ cands, e.name ∈ (appendNewAux rows names cands).map Row.name := by
  intro cands
  induction cands with
  | nil => intro rows names _ e he; exact absurd he (List.not_mem_nil e)
  | cons e0 rest ih =>
    intro rows names hsub e he
    by_cases hmem : e0.name ∈ names
    · rw [appendNewAux, if_pos hmem]
      rcases List.mem_cons.mp he with h | h
      · subst h
        obtain ⟨ext, hext⟩ := appendNewAux_extends rest rows names
        rw [hext, List.map_append]
        exact List.mem_append_left _ (hsub _ hmem)
      · exact ih rows names hsub e h
    · rw [appendNewAux, if_neg hmem]
      have hsub' : ∀ x ∈ e0.name :: names, x ∈ (rows ++ [defaultRow e0]).map Row.name := by
        intro x hx
        rw [List.map_append]
        rcases List.mem_cons.mp hx with h | h
        · subst h
          exact List.mem_append_right _ (by simp [defaultRow])
        · exact List.mem_append_left _ (hsub _ h)
      rcases List.mem_cons.mp he with h | h
      · subst h
        obtain ⟨ext, hext⟩ :=
          appendNewAux_extends rest (rows ++ [defaultRow e]) (e.name :: names)
        rw [hext, List.map_append]
        exact List.mem_append_left _ (hsub' _ (List.mem_cons_self _ _))
      · exact ih _ _ hsub' e h

theorem appendNewAux_id_of_covered :
    ∀ (cands : List Employee) (rows : List Row) (names : List Str),
      (∀ e ∈ cands, e.name ∈ names) → appendNewAux rows names cands = rows := by
  intro cands
  induction cands with
  | nil => intro rows names _; rfl
  | cons e0 rest ih =>
    intro rows names h
    rw [appendNewAux, if_pos (h e0 (List.mem_cons_self e0 rest))]
    exact ih rows names (fun e he => h e (List.mem_cons_of_mem e0 he))

theorem auto_assign_day_lookup_extends (emps : List Employee) (cd : List Nat)
    (y m : Nat) (s : Roster) (d' : Nat) (k : Str) :
    ∃ ext, lookupD (auto_assign_day emps cd y m s d') k = lookupD s k ++ ext := by
  simp only [auto_assign_day]
  by_cases h1 : d' = 0 ∨ d' ∈ cd
  · exact ⟨[], by rw [if_pos h1, List.append_nil]⟩
  · rw [if_neg h1]
    by_cases h2 : emps.filter (fun e => decide (wdayStr y m d' ∈ e.available_days)) = []
    · exact ⟨[], by rw [if_pos h2, List.append_nil]⟩
    · rw [if_neg h2]
      by_cases hk : k = ymd y m d'
      · subst hk
        rw [lookupD_setdefaultThen_self]
        exact appendNewAux_extends _ _ _
      · exact ⟨[], by rw [lookupD_setdefaultThen_other s hk, List.append_nil]⟩

theorem dayDone_mono {emps : List Employee} {cd : List Nat} {y m : Nat} {s : Roster}
    {d : Nat} (hd : dayDone emps cd y m s d) (d' : Nat) :
    dayDone emps cd y m (auto_assign_day emps cd y m s d') d := by
  rcases hd with h | h | h
  · exact Or.inl h
  · exact Or.inr (Or.inl h)
  · refine Or.inr (Or.inr ?_)
    intro e he
    obtain ⟨ext, hext⟩ := auto_assign_day_lookup_extends emps cd y m s d' (ymd y m d)
    rw [hext, List.map_append]
    exact List.mem_append_left _ (h e he)

theorem auto_assign_day_done (emps : List Employee) (cd : List Nat) (y m : Nat)
    (s : Roster) (d : Nat) :
    dayDone emps cd y m (auto_assign_day emps cd y m s d) d := by
  by_cases h1 : d = 0 ∨ d ∈ cd
  · exact h1.imp (fun h => h) (fun h => Or.inl h)
  · refine Or.inr (Or.inr ?_)
    intro e he
    simp only [auto_assign_day]
    rw [if_neg h1]
    by_cases h2 : emps.filter (fun e => decide (wdayStr y m d ∈ e.available_days)) = []
    · rw [h2] at he
      exact absurd he (List.not_mem_nil e)
    · rw [if_neg h2, lookupD_setdefaultThen_self]
      exact appendNewAux_covers _ _ _ (fun x hx => hx) e he

theorem auto_assign_day_noop {emps : List Employee} {cd : List Nat} {y m : Nat}
    {s : Roster} {d : Nat} (hd : dayDone emps cd y m s d) :
    auto_assign_day emps cd y m s d = s := by
  simp only [auto_assign_day]
  by_cases h1 : d = 0 ∨ d ∈ cd
  · rw [if_pos h1]
  · rw [if_neg h1]
    by_cases h2 : emps.filter (fun e => decide (wdayStr y m d ∈ e.available_days)) = []
    · rw [if_pos h2]
    · rw [if_neg h2]
      rcases hd with h | h | h
      · exact absurd (Or.inl h) h1
      · exact absurd (Or.inr h) h1
      · have hanil : lookupD s (ymd y m d) ≠ [] := by
          obtain ⟨e0, he0⟩ := List.exists_mem_of_ne_nil _ h2
          intro hnil
          have hmem := h e0 he0
          rw [hnil] at hmem
          exact absurd hmem (List.not_mem_nil _)
        have hck : containsKey s (ymd y m d) = true := containsKey_of_lookupD_ne hanil
        simp only [setdefaultThen, hck, if_true]
        rw [appendNewAux_id_of_covered _ _ _ h]
        exact replaceFirst_self hck

theorem runDays_done (emps : List Employee) (cd : List Nat) (y m : Nat) :
    ∀ (ds : List Nat) (s : Roster) (d : Nat), dayDone emps cd y m s d →
      dayDone emps cd y m (ds.foldl (auto_assign_day emps cd y m) s) d := by
  intro ds
  induction ds with
  | nil => exact fun s d h => h
  | cons d0 rest ih =>
    intro s d h
    rw [List.foldl_cons]
    exact ih _ d (dayDone_mono h d0)

theorem runDays_all_done (emps : List Employee) (cd : List Nat) (y m : Nat) :
    ∀ (ds : List Nat) (s : Roster) (d : Nat), d ∈ ds →
      dayDone emps cd y m (ds.foldl (auto_assign_day emps cd y m) s) d := by
  intro ds
  induction ds with
  | nil => intro s d h; exact absurd h (List.not_mem_nil d)
  | cons d0 rest ih =>
    intro s d h
    rw [List.foldl_cons]
    rcases List.mem_cons.mp h with h | h
    · subst h
      exact runDays_done emps cd y m rest _ d (auto_assign_day_done emps cd y m s d)
    · exact ih _ d h

theorem runDays_noop (emps : List Employee) (cd : List Nat) (y m : Nat) :
    ∀ (ds : List Nat) (s : Roster), (∀ d ∈ ds, dayDone emps cd y m s d) →
      ds.foldl (auto_assign_day emps cd y m) s = s := by
  intro ds
  induction ds with
  | nil => intro s _; rfl
  | cons d0 rest ih =>
    intro s h
    rw [List.foldl_cons, auto_assign_day_noop (h d0 (List.mem_cons_self d0 rest))]
    exact ih s (fun d hd => h d (List.mem_cons_of_mem d0 hd))

theorem foldl_weeks_join (emps : List Employee) (cd : List Nat) (y m : Nat) :
    ∀ (L : List (List Nat)) (s : Roster),
      L.foldl (fun s wk => wk.foldl (auto_assign_day emps cd y m) s) s =
        L.flatten.foldl (auto_assign_day emps cd y m) s := by
  intro L
  induction L with
  | nil => intro s; rfl
  | cons wk rest ih =>
    intro s
    rw [List.foldl_cons, List.flatten_cons, List.foldl_append]
    exact ih _

/-- C4: with no changes to the directory, the closed-day store, or the roster
between the calls, running the auto-assignment twice yields the same
RosterStore as running it once. -/
theorem auto_assign_idempotent (emps : List Employee) (cs : ClosedStore) (y m : Nat)
    (s : Roster) :
    auto_assign_for_month emps cs y m (auto_assign_for_month emps cs y m s) =
      auto_assign_for_month emps cs y m s := by
  simp only [auto_assign_for_month]
  rw [foldl_weeks_join, foldl_weeks_join]
  exact runDays_noop _ _ _ _ _ _
    (fun d hd => runDays_all_done _ _ _ _ _ _ d hd)

/-! Round-trip machinery (C10). -/

theorem mapEq {α β : Type} {f g : α → β} :
    ∀ (l : List α), (∀ a ∈ l, f a = g a) → l.map f = l.map g := by
  intro l
  induction l with
  | nil => intro _; rfl
  | cons a rest ih =>
    intro h
    rw [List.map_cons, List.map_cons, h a (List.mem_cons_self a rest),
      ih (fun a' ha' => h a' (List.mem_cons_of_mem a ha'))]

theorem mapNoop {α : Type} {f : α → α} :
    ∀ (l : List α), (∀ a ∈ l, f a = a) → l.map f = l := by
  intro l
  induction l with
  | nil => intro _; rfl
  | cons a rest ih =>
    intro h
    rw [List.map_cons, h a (List.mem_cons_self a rest),
      ih (fun a' ha' => h a' (List.mem_cons_of_mem a ha'))]

theorem charTrim_eq_self {s : Str} (h : ∀ c ∈ s, c.isWhitespace = false) :
    charTrim s = s := by
  unfold charTrim
  have h1 : s.dropWhile Char.isWhitespace = s := by
    cases s with
    | nil => rfl
    | cons c t =>
      rw [List.dropWhile_cons, if_neg]
      simp [h c (List.mem_cons_self c t)]
  rw [h1]
  have h2 : s.reverse.dropWhile Char.isWhitespace = s.reverse := by
    cases hrev : s.reverse with
    | nil => rfl
    | cons c t =>
      rw [List.dropWhile_cons, if_neg]
      have hc : c ∈ s := by
        rw [← List.mem_reverse, hrev]
        exact List.mem_cons_self c t
      simp [h c hc]
  rw [h2, List.reverse_reverse]

theorem sepFold_eq_self :
    ∀ (seps : List Char) (s : Str), (∀ c ∈ s, c ∉ seps) →
      seps.foldl (fun acc sep => acc.map (fun c => if c = sep then ',' else c)) s = s := by
  intro seps
  induction seps with
  | nil => intro s _; rfl
  | cons sp rest ih =>
    intro s h
    rw [List.foldl_cons]
    have hmap : s.map (fun c => if c = sp then ',' else c) = s := by
      apply mapNoop
      intro c hc
      rw [if_neg]
      intro hceq
      exact h c hc (hceq ▸ List.mem_cons_self sp rest)
    rw [hmap]
    exact ih s (fun c hc hmem => h c hc (List.mem_cons_of_mem sp hmem))

theorem splitChar_ne_nil (sep : Char) : ∀ s : Str, splitChar sep s ≠ [] := by
  intro s
  cases s with
  | nil => simp [splitChar]
  | cons c rest =>
    cases hsp : splitChar sep rest with
    | nil => simp [splitChar, hsp]
    | cons h t =>
      simp only [splitChar, hsp]
      split <;> simp

theorem splitChar_of_not_mem {sep : Char} :
    ∀ {s : Str}, sep ∉ s → splitChar sep s = [s] := by
  intro s
  induction s with
  | nil => intro _; rfl
  | cons c rest ih =>
    intro h
    have hc : c ≠ sep := fun hc => h (hc ▸ List.mem_cons_self c rest)
    have hrest : sep ∉ rest := fun hm => h (List.mem_cons_of_mem c hm)
    rw [splitChar, ih hrest]
    simp [fun hh => hc hh]

theorem splitChar_append {sep : Char} :
    ∀ {p : Str}, sep ∉ p → ∀ (t : Str), splitChar sep (p ++ sep :: t) = p :: splitChar sep t := by
  intro p
  induction p with
  | nil =>
    intro _ t
    rw [List.nil_append]
    cases ht : splitChar sep t with
    | nil => exact absurd ht (splitChar_ne_nil sep t)
    | cons h' t' =>
      simp [splitChar, ht]
  | cons c p' ih =>
    intro hp t
    have hc : c ≠ sep := fun hc => hp (hc ▸ List.mem_cons_self c p')
    have hp' : sep ∉ p' := fun hm => hp (List.mem_cons_of_mem c hm)
    rw [List.cons_append, splitChar, ih hp' t]
    simp [fun hh => hc hh]

theorem mem_joinSep {c : Char} :
    ∀ {days : List Str}, c ∈ joinSep [','] days → c = ',' ∨ ∃ p ∈ days, c ∈ p := by
  intro days
  induction days with
  | nil => intro h; exact absurd h (List.not_mem_nil c)
  | cons p rest ih =>
    cases rest with
    | nil =>
      intro h
      exact Or.inr ⟨p, List.mem_cons_self p [], h⟩
    | cons q rest' =>
      intro h
      have : joinSep [','] (p :: q :: rest') = p ++ [','] ++ joinSep [','] (q :: rest') := rfl
      rw [this] at h
      rcases List.mem_append.mp h with h' | h'
      · rcases List.mem_append.mp h' with h'' | h''
        · exact Or.inr ⟨p, List.mem_cons_self p _, h''⟩
        · exact Or.inl (List.mem_singleton.mp h'')
      · rcases ih h' with h'' | ⟨p', hp', hc'⟩
        · exact Or.inl h''
        · exact Or.inr ⟨p', List.mem_cons_of_mem p hp', hc'⟩

theorem splitChar_joinSep :
    ∀ (days : List Str), days ≠ [] → (∀ d ∈ days, ',' ∉ d) →
      splitChar ',' (joinSep [','] days) = days := by
  intro days
  induction days with
  | nil => intro h _; exact absurd rfl h
  | cons p rest ih =>
    intro _ h
    cases rest with
    | nil => exact splitChar_of_not_mem (h p (List.mem_cons_self p []))
    | cons q rest' =>
      have hjoin : joinSep [','] (p :: q :: rest') = p ++ ',' :: joinSep [','] (q :: rest') := by
        show p ++ [','] ++ joinSep [','] (q :: rest') = _
        rw [List.append_assoc]
        rfl
      rw [hjoin, splitChar_append (h p (List.mem_cons_self p _)),
        ih (List.cons_ne_nil q rest') (fun d hd => h d (List.mem_cons_of_mem p hd))]

theorem dedupFirstAux_of_nodup {α : Type} [DecidableEq α] :
    ∀ (l : List α) (seen : List α), l.Nodup → (∀ a ∈ l, a ∉ seen) →
      dedupFirstAux l seen = l := by
  intro l
  induction l with
  | nil => intro seen _ _; rfl
  | cons a rest ih =>
    intro seen hnd hdis
    rw [dedupFirstAux, if_neg (hdis a (List.mem_cons_self a rest))]
    rw [ih (a :: seen) (List.Nodup.of_cons hnd)]
    intro a' ha'
    intro hm
    rcases List.mem_cons.mp hm with h | h
    · exact (List.nodup_cons.mp hnd).1 (h ▸ ha')
    · exact hdis a' (List.mem_cons_of_mem a ha') h

theorem dedupFirst_of_nodup {α : Type} [DecidableEq α] {l : List α} (h : l.Nodup) :
    dedupFirst l = l :=
  dedupFirstAux_of_nodup l [] h (fun a _ => List.not_mem_nil a)

theorem korean_find_self : ∀ d ∈ KOREAN_DAYS,
    KOREAN_DAYS.find? (fun d' => subOf d' d) = some d := by decide

theorem korean_no_comma : ∀ d ∈ KOREAN_DAYS, ',' ∉ d := by decide

theorem korean_no_ws : ∀ d ∈ KOREAN_DAYS, ∀ c ∈ d, c.isWhitespace = false := by decide

theorem korean_no_seps : ∀ d ∈ KOREAN_DAYS, ∀ c ∈ d, c ∉ DAY_SEPS := by decide

theorem korean_trim : ∀ d ∈ KOREAN_DAYS, charTrim d = d := by decide

theorem korean_ne_nil : ∀ d ∈ KOREAN_DAYS, d ≠ [] := by decide

theorem korean_splitRun : ∀ d ∈ KOREAN_DAYS, splitRunAux d [] = [d] := by decide

theorem filterMap_find_self :
    ∀ (parts : List Str), (∀ p ∈ parts, p ∈ KOREAN_DAYS) →
      parts.filterMap (fun p => KOREAN_DAYS.find? (fun d => subOf d p)) = parts := by
  intro parts
  induction parts with
  | nil => intro _; rfl
  | cons p rest ih =>
    intro h
    rw [List.filterMap_cons, korean_find_self p (h p (List.mem_cons_self p rest)),
      ih (fun p' hp' => h p' (List.mem_cons_of_mem p hp'))]

theorem normalize_days_roundtrip :
    ∀ (days : List Str), days.Nodup → (∀ d ∈ days, d ∈ KOREAN_DAYS) →
      normalize_days (some (joinSep [','] days)) = days := by
  intro days hnd hk
  cases days with
  | nil => rfl
  | cons d0 rest =>
    have hchar : ∀ c ∈ joinSep [','] (d0 :: rest), c = ',' ∨ ∃ p ∈ d0 :: rest, c ∈ p :=
      fun c hc => mem_joinSep hc
    have hnows : ∀ c ∈ joinSep [','] (d0 :: rest), c.isWhitespace = false := by
      intro c hc
      rcases hchar c hc with h | ⟨p, hp, hcp⟩
      · subst h; decide
      · exact korean_no_ws p (hk p hp) c hcp
    have htrim : charTrim (joinSep [','] (d0 :: rest)) = joinSep [','] (d0 :: rest) :=
      charTrim_eq_self hnows
    have hnosep : ∀ c ∈ joinSep [','] (d0 :: rest), c ∉ DAY_SEPS := by
      intro c hc
      rcases hchar c hc with h | ⟨p, hp, hcp⟩
      · subst h; decide
      · exact korean_no_seps p (hk p hp) c hcp
    have hfold := sepFold_eq_self DAY_SEPS _ hnosep
    have hne : joinSep [','] (d0 :: rest) ≠ [] := by
      cases rest with
      | nil => exact korean_ne_nil d0 (hk d0 (List.mem_cons_self _ _))
      | cons q rest' =>
        show d0 ++ [','] ++ joinSep [','] (q :: rest') ≠ []
        simp
    simp only [normalize_days]
    rw [htrim, if_neg hne, hfold]
    cases rest with
    | nil =>
      have hd0K : d0 ∈ KOREAN_DAYS := hk d0 (List.mem_cons_self _ _)
      have hJ : joinSep [','] [d0] = d0 := rfl
      rw [hJ, if_pos (korean_no_comma d0 hd0K), korean_splitRun d0 hd0K,
        filterMap_find_self [d0] (fun p hp => (List.mem_singleton.mp hp) ▸ hd0K)]
      exact dedupFirst_of_nodup hnd
    | cons q rest' =>
      have hcomma : ',' ∈ joinSep [','] (d0 :: q :: rest') := by
        show ',' ∈ d0 ++ [','] ++ joinSep [','] (q :: rest')
        exact List.mem_append.mpr (Or.inl (List.mem_append.mpr (Or.inr
          (List.mem_singleton.mpr rfl))))
      rw [if_neg (not_not_intro hcomma),
        splitChar_joinSep _ (List.cons_ne_nil d0 _) (fun d hd => korean_no_comma d (hk d hd)),
        mapNoop _ (fun d hd => korean_trim d (hk d hd))]
      have hfilter : (d0 :: q :: rest').filter (fun p => decide (p ≠ [])) = d0 :: q :: rest' := by
        apply List.filter_eq_self.mpr
        intro a ha
        exact decide_eq_true (korean_ne_nil a (hk a ha))
      rw [hfilter, filterMap_find_self _ hk]
      exact dedupFirst_of_nodup hnd

theorem normRow_id (a b c d e5 : Str) :
    HEADER_MAP.map (fun tk =>
      match hitCol (HEADER_MAP.map Prod.fst) tk.2 with
      | some cc => colValue (HEADER_MAP.map Prod.fst) [a, b, c, d, e5] cc
      | none => []) = [a, b, c, d, e5] := rfl

theorem normalize_columns_export (emps : List Employee) :
    normalize_columns (employees_to_df emps) =
      ⟨HEADER_MAP.map Prod.fst,
       emps.map (fun e =>
         [e.name, e.phone, e.role, e.employment_type, joinSep [','] e.available_days])⟩ := by
  unfold normalize_columns employees_to_df
  congr 1
  rw [List.map_map]
  exact mapEq emps (fun e _ =>
    normRow_id e.name e.phone e.role e.employment_type (joinSep [','] e.available_days))

theorem emp_types_trim : ∀ t ∈ EMP_TYPES, charTrim t = t := by decide

theorem dfRows_roundtrip :
    ∀ (emps : List Employee) (idx : Nat), (∀ e ∈ emps, GoodEmp e) →
      dfRowsToEmployees (HEADER_MAP.map Prod.fst)
        (emps.map (fun e =>
          [e.name, e.phone, e.role, e.employment_type, joinSep [','] e.available_days])) idx =
      (emps, []) := by
  intro emps
  induction emps with
  | nil => intro idx _; rfl
  | cons e rest ih =>
    intro idx h
    obtain ⟨h1, h2, h3, h4, h5, h6, h7⟩ := h e (List.mem_cons_self e rest)
    rw [List.map_cons]
    rw [dfRowsToEmployees]
    have hname : colValue (HEADER_MAP.map Prod.fst)
        [e.name, e.phone, e.role, e.employment_type, joinSep [','] e.available_days]
        ['n', 'a', 'm', 'e'] = e.name := rfl
    have hphone : colValue (HEADER_MAP.map Prod.fst)
        [e.name, e.phone, e.role, e.employment_type, joinSep [','] e.available_days]
        ['p', 'h', 'o', 'n', 'e'] = e.phone := rfl
    have hrole : colValue (HEADER_MAP.map Prod.fst)
        [e.name, e.phone, e.role, e.employment_type, joinSep [','] e.available_days]
        ['r', 'o', 'l', 'e'] = e.role := rfl
    have het : colValue (HEADER_MAP.map Prod.fst)
        [e.name, e.phone, e.role, e.employment_type, joinSep [','] e.available_days]
        ['e', 'm', 'p', 'l', 'o', 'y', 'm', 'e', 'n', 't', '_', 't', 'y', 'p', 'e'] =
        e.employment_type := rfl
    have hdays : colValue (HEADER_MAP.map Prod.fst)
        [e.name, e.phone, e.role, e.employment_type, joinSep [','] e.available_days]
        ['a', 'v', 'a', 'i', 'l', 'a', 'b', 'l', 'e', '_', 'd', 'a', 'y', 's'] =
        joinSep [','] e.available_days := rfl
    simp only [hname, hphone, hrole, het, hdays, h1]
    rw [if_neg h2]
    rw [emp_types_trim e.employment_type h5, if_pos h5]
    rw [normalize_days_roundtrip e.available_days h6 h7, h3, h4]
    rw [ih (idx + 1) (fun e' he' => h e' (List.mem_cons_of_mem e he'))]

/-- C10: for a directory whose records all satisfy `GoodEmp`, importing the
rows produced by the export yields exactly the original records in order and
an empty skipped-rows list. -/
theorem export_import_roundtrip (emps : List Employee) (h : ∀ e ∈ emps, GoodEmp e) :
    df_to_employees (employees_to_df emps) = (emps, []) := by
  unfold df_to_employees
  rw [normalize_columns_export]
  exact dfRows_roundtrip emps 0 h

/-- Witness for C10 at a concrete one-record directory. -/
theorem export_import_roundtrip_witness :
    (∀ e ∈ [empHong], GoodEmp e) ∧
    df_to_employees (employees_to_df [empHong]) = ([empHong], []) :=
  ⟨by decide, export_import_roundtrip [empHong] (by decide)⟩
